import Mathlib

/- Verification development for the Power BI bookmark/calendar generator.
   It embeds the ambiguity-resolution core: the fuzzy entity matcher
   (smart_match_chart and norm of bookmark_2.py) and the field-role pipeline
   of calendar_generate.py (schema / naming-pattern signal analyzers, the
   classifier adapter boundary, signal merging, fallback completion,
   hierarchy-level detection and role projection).  Python dicts are modelled
   as insertion-ordered association lists; Python strings as Lean strings
   (character lists); Python integers as Int. -/

namespace PBI

/-- Python whitespace, as `str.strip` and `str.split` see it (ASCII). -/
def pyIsSpace (c : Char) : Bool :=
  c == ' ' || c == '\t' || c == '\n' || c == '\r' || c == '\x0b' || c == '\x0c'

/-- Python `str.strip` on a character list. -/
def pyStripL (s : List Char) : List Char :=
  ((s.dropWhile pyIsSpace).reverse.dropWhile pyIsSpace).reverse

/-- Python `str.strip`. -/
def pyStrip (s : String) : String := ⟨pyStripL s.data⟩

/-- Python `str.lower` (ASCII case mapping, which is all the pipeline compares). -/
def pyLower (s : String) : String := ⟨s.data.map Char.toLower⟩

/-- The characters kept by the normalizer's `[^a-z0-9]` removal. -/
def isLowerAlnum (c : Char) : Bool :=
  ('a' ≤ c && c ≤ 'z') || ('0' ≤ c && c ≤ '9')

/-- Text normalizer `norm` of bookmark_2.py:
    `re.sub(r'[^a-z0-9]', '', text.strip().lower())` (empty input stays empty). -/
def norm (s : String) : String :=
  ⟨(pyLower (pyStrip s)).data.filter isLowerAlnum⟩

/-- Does the pattern (first argument) begin the second list? -/
def leadsWith : List Char → List Char → Bool
  | [], _ => true
  | _ :: _, [] => false
  | a :: as, b :: bs => a == b && leadsWith as bs

/-- Python substring test `p in s` on character lists (the empty pattern
    occurs in every string, exactly as in Python). -/
def occursIn (p : List Char) : List Char → Bool
  | [] => p.isEmpty
  | b :: bs => leadsWith p (b :: bs) || occursIn p bs

/-- Helper for Python `str.split()`: accumulates the current word (reversed). -/
def pySplitAux : List Char → List Char → List (List Char)
  | [], acc => if acc.isEmpty then [] else [acc.reverse]
  | c :: cs, acc =>
    if pyIsSpace c then
      if acc.isEmpty then pySplitAux cs [] else acc.reverse :: pySplitAux cs []
    else pySplitAux cs (c :: acc)

/-- Python `str.split()` with no separator: maximal runs of non-whitespace. -/
def pySplitWs (s : List Char) : List (List Char) := pySplitAux s []

/-- Cardinality of `set(a) & set(b)` for Python word lists. -/
def interCard (a b : List (List Char)) : Nat :=
  (a.dedup.filter (fun t => b.elem t)).length

/- ==================== bookmark_2.py : fuzzy entity matcher ==================== -/

/-- A candidate visual as seen by the matcher: its `title` and `source`
    text attributes (absent attributes are the empty string, matching
    `visual.get("title", "")`). -/
structure Visual where
  title : String
  source : String
deriving DecidableEq

/-- Score of one (target, attribute) comparison in `smart_match_chart`,
    on already-normalized character lists: exact match 100; target contained
    in attribute 80 minus the length difference; attribute contained in
    target 60; otherwise 40 + 10 per common whitespace-token, or 0. -/
def scoreAttr (tn cn : List Char) : Int :=
  if tn == cn then 100
  else if occursIn tn cn then 80 - ((cn.length : Int) - (tn.length : Int))
  else if occursIn cn tn then 60
  else
    let common := interCard (pySplitWs tn) (pySplitWs cn)
    if 0 < common then 40 + 10 * (common : Int) else 0

/-- The attributes of a visual the matcher's inner loop actually scores:
    `for candidate in [title, source]: if not candidate: continue`. -/
def consideredAttrs (v : Visual) : List String :=
  [v.title, v.source].filter (fun a => a != "")

/-- The (visual, score) pairs one visual contributes, in loop order. -/
def visualPairs (tn : List Char) (v : Visual) : List (Visual × Int) :=
  (consideredAttrs v).map (fun a => (v, scoreAttr tn (norm a).data))

/-- All (visual, score) pairs of the double loop, in iteration order. -/
def allPairs (tn : List Char) : List Visual → List (Visual × Int)
  | [] => []
  | v :: rest => visualPairs tn v ++ allPairs tn rest

/-- The matcher's running state: `best_match` and `best_score`. -/
structure MatchState where
  best : Option Visual
  bestScore : Int
deriving DecidableEq

/-- The matcher's scan: update the best pair on every strictly greater score. -/
def runMatch (st : MatchState) (ps : List (Visual × Int)) : MatchState :=
  ps.foldl (fun st p => if st.bestScore < p.2 then ⟨some p.1, p.2⟩ else st) st

/-- smart_match_chart of bookmark_2.py: falsy target returns None; otherwise
    scan all candidates and attributes and return the best visual only when
    its score reaches the 50 threshold. -/
def smart_match_chart (target : String) (visuals : List Visual) : Option Visual :=
  if target == "" then none
  else if 50 ≤ (runMatch ⟨none, 0⟩ (allPairs (norm target).data visuals)).bestScore then
    (runMatch ⟨none, 0⟩ (allPairs (norm target).data visuals)).best
  else none

/-- The highest score over all candidates and attributes, floored at the
    initial `best_score = 0`. -/
def maxScore (target : String) (visuals : List Visual) : Int :=
  ((allPairs (norm target).data visuals).map Prod.snd).foldl max 0

/- ==================== calendar_generate.py : data model ==================== -/

/-- A Python dict (insertion-ordered, unique keys) with string keys. -/
abbrev Dict (α : Type) := List (String × α)

/-- A signal map / role assignment: role name to field name. -/
abbrev SigMap := Dict String

/-- The engine's `all_fields` dict: field name to owning table, in insertion
    order (`available_fields = list(self.all_fields.keys())`). -/
abbrev Fields := Dict String

/-- `schema_data`: table name to its ordered column descriptors (name, type). -/
abbrev Schema := Dict (List (String × String))

/-- Python dict lookup `d[k]` (first binding wins; inserted dicts keep keys
    unique, so this matches dict semantics). -/
def lookupD {α : Type} : Dict α → String → Option α
  | [], _ => none
  | (k, v) :: rest, key => if k == key then some v else lookupD rest key

/-- Python dict membership `k in d`. -/
def hasKey {α : Type} (d : Dict α) (k : String) : Bool :=
  (lookupD d k).isSome

/-- Python dict assignment `d[k] = v`: update in place, else append. -/
def setD {α : Type} : Dict α → String → α → Dict α
  | [], k, v => [(k, v)]
  | (k1, v1) :: rest, k, v =>
    if k1 == k then (k1, v) :: rest else (k1, v1) :: setD rest k v

/-- Python truthiness test `not roles[r]` used by the fallback steps: the role
    needs filling when its key is absent or its value is the empty string. -/
def needRole (d : SigMap) (r : String) : Bool :=
  match lookupD d r with
  | none => true
  | some v => v == ""

/-- `any(pat in s for pat in pats)` over an already lowercased string. -/
def containsAnySub (pats : List String) (s : String) : Bool :=
  pats.any (fun p => occursIn p.data s.data)

/- ==================== schema signal analyzer ==================== -/

/-- `FieldRoleEngine._get_field_datatype`: falsy or unknown table gives None;
    otherwise the (lowercased) type of the first column whose stripped,
    lowercased name equals the field's. -/
def getFieldDatatype (schema : Schema) (field table : String) : Option String :=
  if table == "" then none
  else
    match lookupD schema table with
    | none => none
    | some cols =>
      match cols.find? (fun ci => pyLower (pyStrip ci.1) == pyLower (pyStrip field)) with
      | some ci => some (pyLower ci.2)
      | none => none

/-- One field's contribution in `_analyze_schema_signals`. -/
def schemaStep (schema : Schema) (roles : SigMap) (ft : String × String) : SigMap :=
  match getFieldDatatype schema ft.1 ft.2 with
  | none => roles
  | some dt =>
    if dt == "" then roles
    else if containsAnySub ["date", "datetime", "timestamp"] dt then
      if hasKey roles "date" then roles else setD roles "date" ft.1
    else if containsAnySub ["int", "float", "decimal", "number", "numeric"] dt then
      if hasKey roles "measure" then roles else setD roles "measure" ft.1
    else if containsAnySub ["text", "string", "varchar", "char"] dt then
      if hasKey roles "category" then roles else setD roles "category" ft.1
    else roles

/-- `FieldRoleEngine._analyze_schema_signals`: first field per rule wins;
    date-like types propose `date`, numeric types `measure`, text types
    `category`; missing or empty types contribute nothing. -/
def analyzeSchemaSignals (schema : Schema) (fields : Fields) : SigMap :=
  fields.foldl (schemaStep schema) []

/- ==================== naming-pattern signal analyzer ==================== -/

/-- One field's contribution in `_analyze_cardinality_signals` (the local
    `field_lower = field_name.lower()` is inlined). -/
def cardStep (roles : SigMap) (ft : String × String) : SigMap :=
  if containsAnySub ["index", "id", "row", "number", "#"] (pyLower ft.1) then
    if hasKey roles "event_index" then roles else setD roles "event_index" ft.1
  else if containsAnySub ["type", "category", "group", "status", "class"] (pyLower ft.1) then
    if hasKey roles "category" then roles else setD roles "category" ft.1
  else if containsAnySub ["week", "label", "name"] (pyLower ft.1) then
    if hasKey roles "week_label" then roles else setD roles "week_label" ft.1
  else roles

/-- `FieldRoleEngine._analyze_cardinality_signals`: per lowercased field name,
    event_index patterns, else category patterns, else week_label patterns;
    first field per role wins. -/
def analyzeCardinality (fields : Fields) : SigMap :=
  fields.foldl cardStep []

/- ==================== semantic classifier adapter ==================== -/

/-- The markdown-fence cleanup `_ask_gemini_for_classification` applies to the
    response text: strip, drop a leading three-backtick json fence with the
    whitespace after it, drop a trailing fence with the whitespace before it,
    strip again. -/
def cleanResponseText (t : String) : String :=
  let s1 := pyStripL t.data
  let s2 := if leadsWith ("```json").data s1 then
      (s1.drop 7).dropWhile pyIsSpace
    else s1
  let rev := s2.reverse
  let s3 := if leadsWith ("```").data rev then
      ((rev.drop 3).dropWhile pyIsSpace).reverse
    else s2
  pyStrip ⟨s3⟩

/-- `FieldRoleEngine._ask_gemini_for_classification`, with its two external
    collaborators as parameters: `call` is the outcome of the blocking
    `model.generate_content` request (its stripped text, or an error) and
    `parseJson` is `json.loads` on the cleaned text (a role dict, or an
    error).  The body's try/except maps every failure to the empty dict. -/
def askGeminiForClassification (call : Except String String)
    (parseJson : String → Except String SigMap) : SigMap :=
  match call with
  | .error _ => []
  | .ok text =>
    match parseJson (cleanResponseText text) with
    | .error _ => []
    | .ok m => m

/- ==================== signal merger ==================== -/

/-- One pass of `_merge_signals`: insert each (role, field) of the source map
    whose guard holds. -/
def mergePhase (guard : SigMap → String × String → Bool) (src : SigMap)
    (acc : SigMap) : SigMap :=
  src.foldl (fun a rf => if guard a rf then setD a rf.1 rf.2 else a) acc

/-- `FieldRoleEngine._merge_signals(schema_roles, cardinality_roles,
    gemini_roles)`: Gemini entries with a truthy field that is a member of
    `all_fields` first, then schema entries for roles not yet filled, then
    cardinality entries for roles not yet filled. -/
def mergeSignals (fields : Fields) (schema_roles cardinality_roles gemini_roles : SigMap) :
    SigMap :=
  mergePhase (fun acc rf => !hasKey acc rf.1 && (fields.map Prod.fst).elem rf.2)
    cardinality_roles
    (mergePhase (fun acc rf => !hasKey acc rf.1 && (fields.map Prod.fst).elem rf.2)
      schema_roles
      (mergePhase (fun _ rf => rf.2 != "" && (fields.map Prod.fst).elem rf.2)
        gemini_roles []))

/- ==================== fallback completion ==================== -/

/-- Patterns of the date fallback (step 1). -/
def fbPats1 : List String := ["date", "dt", "data", "transaction", "time"]

/-- Patterns of the event_index fallback (step 2). -/
def fbPats2 : List String := ["index", "id", "row", "#", "num"]

/-- Patterns of the week_label fallback (step 3). -/
def fbPats3 : List String := ["week", "label", "name", "status"]

/-- `any(pattern in field.lower() for pattern in pats)`. -/
def fieldMatches (pats : List String) (f : String) : Bool :=
  containsAnySub pats (pyLower f)

/-- One pattern-guarded fallback step (steps 1 to 3 of
    `_apply_fallback_logic`): when the role is absent or falsy, assign the
    first available field that matches a pattern and is not already used, and
    mark it used. -/
def fbStep (r : String) (pats : List String) (avail : List String)
    (st : SigMap × List String) : SigMap × List String :=
  if needRole st.1 r then
    match avail.find? (fun f => fieldMatches pats f && !st.2.elem f) with
    | some f => (setD st.1 r f, st.2 ++ [f])
    | none => st
  else st

/-- Step 4 of `_apply_fallback_logic`: the category fallback takes the first
    available field that is not already used (no pattern requirement). -/
def fbCategory (avail : List String) (st : SigMap × List String) :
    SigMap × List String :=
  if needRole st.1 "category" then
    match avail.find? (fun f => !st.2.elem f) with
    | some f => (setD st.1 "category" f, st.2 ++ [f])
    | none => st
  else st

/-- Step 5: legend reuses week_label when that key is present, else category. -/
def fbLegend (d : SigMap) : SigMap :=
  if needRole d "legend" then
    match lookupD d "week_label" with
    | some w => setD d "legend" w
    | none =>
      match lookupD d "category" with
      | some c => setD d "legend" c
      | none => d
  else d

/-- Step 6: measure reuses event_index when that key is present. -/
def fbMeasure (d : SigMap) : SigMap :=
  if needRole d "measure" then
    match lookupD d "event_index" with
    | some e => setD d "measure" e
    | none => d
  else d

/-- Step 7: event_group reuses date when that key is present. -/
def fbEventGroup (d : SigMap) : SigMap :=
  if needRole d "event_group" then
    match lookupD d "date" with
    | some dt => setD d "event_group" dt
    | none => d
  else d

/-- The closed list of the seven required roles (`required_roles`). -/
def requiredRoles : List String :=
  ["date", "week_label", "category", "legend", "measure", "event_index", "event_group"]

/-- One iteration of the ultimate fallback: a role still absent or falsy is
    assigned the first available field (the inner loop breaks immediately);
    with no fields it stays as it is. -/
def ultimateStep (avail : List String) (d : SigMap) (r : String) : SigMap :=
  if needRole d r then
    match avail with
    | [] => d
    | f :: _ => setD d r f
  else d

/-- The state of `_apply_fallback_logic` after steps 1 to 3, starting from
    `used_fields = set(roles.values())`. -/
def steps123 (avail : List String) (roles : SigMap) : SigMap × List String :=
  fbStep "week_label" fbPats3 avail
    (fbStep "event_index" fbPats2 avail
      (fbStep "date" fbPats1 avail (roles, roles.map Prod.snd)))

/-- `FieldRoleEngine._apply_fallback_logic`: the eight deterministic fallback
    steps over `available_fields = list(all_fields.keys())`. -/
def applyFallback (fields : Fields) (roles : SigMap) : SigMap :=
  requiredRoles.foldl (ultimateStep (fields.map Prod.fst))
    (fbEventGroup (fbMeasure (fbLegend
      (fbCategory (fields.map Prod.fst) (steps123 (fields.map Prod.fst) roles)).1)))

/- ==================== hierarchy detection and role projection ==================== -/

/-- The alternation of `re.search(r'(Quarter|Month|Year|Week|Weekday)', ...)`,
    in the pattern's left-to-right order. -/
def hierKeywords : List String := ["Quarter", "Month", "Year", "Week", "Weekday"]

/-- Case-insensitive `leadsWith` (re.IGNORECASE on ASCII keywords). -/
def leadsWithCI : List Char → List Char → Bool
  | [], _ => true
  | _ :: _, [] => false
  | a :: as, b :: bs => a.toLower == b.toLower && leadsWithCI as bs

/-- The text matched at the current position: regex alternation tries the
    alternatives in order and the first that matches wins. -/
def searchKeywordAt? (s : List Char) : Option (List Char) :=
  (hierKeywords.find? (fun k => leadsWithCI k.data s)).map
    (fun k => s.take k.data.length)

/-- `re.search` over the string: the leftmost position with a match wins. -/
def searchKeyword : List Char → Option (List Char)
  | [] => none
  | c :: cs =>
    match searchKeywordAt? (c :: cs) with
    | some m => some m
    | none => searchKeyword cs

/-- Python `str.capitalize`: first character uppercased, the rest lowercased. -/
def pyCapitalize (s : String) : String :=
  match s.data with
  | [] => ""
  | c :: cs => ⟨c.toUpper :: cs.map Char.toLower⟩

/-- The hierarchy-level extraction of `detect_roles`: scan the hierarchy-hint
    strings in order, capitalize the first keyword match, default "Quarter". -/
def detectHierarchyType (hier : List String) : String :=
  match hier.findSome? (fun h => searchKeyword h.data) with
  | some m => pyCapitalize ⟨m⟩
  | none => "Quarter"

/-- The queryRef built by `detect_roles`: event_group encodes the hierarchy
    level, every other role projects to a plain table.field reference. -/
def buildQueryRef (htype table field role : String) : String :=
  if role == "event_group" then
    table ++ "." ++ field ++ ".Variation.Date Hierarchy." ++ htype
  else table ++ "." ++ field

/-- The projection loop of `detect_roles`: roles with a falsy field or a field
    not in `all_fields` are skipped; the rest map to (queryRef, table). -/
def projectRoles (fields : Fields) (htype : String) (finalRoles : SigMap) :
    Dict (String × String) :=
  finalRoles.foldl (fun res rf =>
    if rf.2 == "" then res
    else
      match lookupD fields rf.2 with
      | none => res
      | some table => setD res rf.1 (buildQueryRef htype table rf.2 rf.1, table)) []

/- ==================== spec-side definitions and concrete data ==================== -/

/-- The highest-priority pick of one signal source for one role, as the spec
    words it: the source's value for the role, when that value is admitted. -/
def srcPick (memb : String → Bool) (m : SigMap) (r : String) : Option String :=
  match lookupD m r with
  | some f => if memb f then some f else none
  | none => none

/-- The spec's description of merging for one role: in priority order
    classifier, schema, naming-pattern, the first source whose value for the
    role is a member of the candidate field set. -/
def specMergeAt (fields : Fields) (g s c : SigMap) (r : String) : Option String :=
  match srcPick (fun f => (fields.map Prod.fst).elem f) g r with
  | some f => some f
  | none =>
    match srcPick (fun f => (fields.map Prod.fst).elem f) s r with
    | some f => some f
    | none => srcPick (fun f => (fields.map Prod.fst).elem f) c r

/-- The end-to-end scenario's field set: three fields of one table. -/
def salesFields : Fields :=
  [("Txn_Date", "SalesTable"), ("Row_Id", "SalesTable"), ("Region", "SalesTable")]

/-- The end-to-end scenario run: no classifier signal, no schema types, then
    merge and fallback. -/
def salesPipeline : SigMap :=
  applyFallback salesFields
    (mergeSignals salesFields (analyzeSchemaSignals [] salesFields)
      (analyzeCardinality salesFields) [])

/- ==================== dictionary lemmas ==================== -/

theorem lookupD_setD_self {α : Type} (d : Dict α) (k : String) (v : α) :
    lookupD (setD d k v) k = some v := by
  induction d with
  | nil => simp [setD, lookupD]
  | cons p rest ih =>
    obtain ⟨k1, v1⟩ := p
    by_cases h : k1 = k
    · subst h; simp [setD, lookupD]
    · simp [setD, lookupD, h, ih]

theorem lookupD_setD_ne {α : Type} (d : Dict α) (k' k : String) (v : α)
    (h : k' ≠ k) : lookupD (setD d k' v) k = lookupD d k := by
  induction d with
  | nil => simp [setD, lookupD, h]
  | cons p rest ih =>
    obtain ⟨k1, v1⟩ := p
    by_cases h1 : k1 = k'
    · subst h1; simp [setD, lookupD, h]
    · simp [setD, lookupD, h1, ih]

theorem mem_setD {α : Type} (d : Dict α) (k : String) (v : α) (p : String × α)
    (hp : p ∈ setD d k v) : (p.1 = k ∧ p.2 = v) ∨ p ∈ d := by
  induction d with
  | nil =>
    simp [setD] at hp
    subst hp; left; exact ⟨rfl, rfl⟩
  | cons q rest ih =>
    obtain ⟨k1, v1⟩ := q
    by_cases h1 : k1 = k
    · subst h1
      simp [setD] at hp
      rcases hp with hp | hp
      · subst hp; left; exact ⟨rfl, rfl⟩
      · right; exact List.mem_cons_of_mem _ hp
    · simp [setD, h1] at hp
      rcases hp with hp | hp
      · subst hp; right; exact List.mem_cons_self _ _
      · rcases ih hp with h | h
        · left; exact h
        · right; exact List.mem_cons_of_mem _ h

theorem hasKey_setD_self {α : Type} (d : Dict α) (k : String) (v : α) :
    hasKey (setD d k v) k = true := by
  simp [hasKey, lookupD_setD_self]

theorem hasKey_setD_of {α : Type} (d : Dict α) (k k' : String) (v : α)
    (h : hasKey d k = true) : hasKey (setD d k' v) k = true := by
  by_cases hk : k' = k
  · subst hk; exact hasKey_setD_self d k' v
  · simpa [hasKey, lookupD_setD_ne d k' k v hk] using h

theorem lookupD_eq_none {α : Type} (d : Dict α) (k : String)
    (h : k ∉ d.map Prod.fst) : lookupD d k = none := by
  induction d with
  | nil => rfl
  | cons p rest ih =>
    obtain ⟨k1, v1⟩ := p
    rw [List.map_cons] at h
    have h1 : k ≠ k1 := fun he => h (by simp [he])
    have h2 : k ∉ rest.map Prod.fst := fun hm => h (List.mem_cons_of_mem _ hm)
    simp [lookupD, Ne.symm h1, ih h2]

theorem mem_of_lookupD {α : Type} (d : Dict α) (k : String) (v : α)
    (h : lookupD d k = some v) : (k, v) ∈ d := by
  induction d with
  | nil => simp [lookupD] at h
  | cons p rest ih =>
    obtain ⟨k1, v1⟩ := p
    by_cases h1 : k1 = k
    · subst h1
      simp [lookupD] at h
      subst h; exact List.mem_cons_self _ _
    · simp [lookupD, h1] at h
      exact List.mem_cons_of_mem _ (ih h)

theorem needRole_false {d : SigMap} {r : String} (h : needRole d r = false) :
    ∃ v, lookupD d r = some v ∧ v ≠ "" := by
  unfold needRole at h
  rcases hl : lookupD d r with _ | v
  · rw [hl] at h; simp at h
  · rw [hl] at h
    refine ⟨v, rfl, ?_⟩
    simpa using h

theorem hasKey_of_needRole_false {d : SigMap} {r : String}
    (h : needRole d r = false) : hasKey d r = true := by
  obtain ⟨v, hv, _⟩ := needRole_false h
  simp [hasKey, hv]

/- ==================== signal merger lemmas ==================== -/

theorem lookupD_mergePhase_first (keys : List String) (g : SigMap) :
    ∀ (acc : SigMap) (r : String), (g.map Prod.fst).Nodup →
    lookupD (mergePhase (fun _ rf => rf.2 != "" && keys.elem rf.2) g acc) r =
      match lookupD g r with
      | some f => if f != "" && keys.elem f then some f else lookupD acc r
      | none => lookupD acc r := by
  induction g with
  | nil => intro acc r _; rfl
  | cons q rest ih =>
    intro acc r hnd
    obtain ⟨k, v⟩ := q
    rw [List.map_cons, List.nodup_cons] at hnd
    obtain ⟨hk, hnd⟩ := hnd
    show lookupD (mergePhase _ rest
      (if v != "" && keys.elem v then setD acc k v else acc)) r = _
    rw [ih _ r hnd]
    by_cases hr : k = r
    · subst hr
      have hrest : lookupD rest k = none := lookupD_eq_none rest k hk
      rw [hrest]
      simp only [lookupD, beq_self_eq_true, if_true]
      by_cases hadm : (v != "" && keys.elem v) = true
      · rw [if_pos hadm, if_pos hadm, lookupD_setD_self]
      · rw [if_neg hadm, if_neg hadm]
    · have hlk : lookupD ((k, v) :: rest) r = lookupD rest r := by
        simp [lookupD, hr]
      rw [hlk]
      by_cases hadm : (v != "" && keys.elem v) = true
      · rw [if_pos hadm, lookupD_setD_ne acc k r v hr]
      · rw [if_neg hadm]

theorem lookupD_mergePhase_rest (keys : List String) (m : SigMap) :
    ∀ (acc : SigMap) (r : String), (m.map Prod.fst).Nodup →
    lookupD (mergePhase (fun acc rf => !hasKey acc rf.1 && keys.elem rf.2) m acc) r =
      match lookupD acc r with
      | some f => some f
      | none =>
        match lookupD m r with
        | some f => if keys.elem f then some f else none
        | none => none := by
  induction m with
  | nil =>
    intro acc r _
    show lookupD acc r = _
    rcases lookupD acc r with _ | f <;> rfl
  | cons q rest ih =>
    intro acc r hnd
    obtain ⟨k, v⟩ := q
    rw [List.map_cons, List.nodup_cons] at hnd
    obtain ⟨hk, hnd⟩ := hnd
    show lookupD (mergePhase _ rest
      (if !hasKey acc k && keys.elem v then setD acc k v else acc)) r = _
    rw [ih _ r hnd]
    by_cases hr : k = r
    · subst hr
      have hrest : lookupD rest k = none := lookupD_eq_none rest k hk
      rw [hrest]
      simp only [lookupD, beq_self_eq_true, if_true]
      rcases hb : hasKey acc k with _ | _
      · have haccn : lookupD acc k = none := by
          rcases hl : lookupD acc k with _ | f
          · rfl
          · have hb2 : (lookupD acc k).isSome = false := hb
            rw [hl] at hb2
            simp at hb2
        rcases hm : keys.elem v with _ | _
        · simp [hb, hm, haccn]
        · simp [hb, hm, haccn, lookupD_setD_self]
      · obtain ⟨f, hf⟩ := Option.isSome_iff_exists.mp hb
        simp [hb, hf]
    · have hlk : lookupD ((k, v) :: rest) r = lookupD rest r := by
        simp [lookupD, hr]
      rw [hlk]
      by_cases hadm : (!hasKey acc k && keys.elem v) = true
      · rw [if_pos hadm, lookupD_setD_ne acc k r v hr]
      · rw [if_neg hadm]

/-- The merged assignment agrees, role by role, with the spec's priority
    description (classifier first, then schema, then naming-pattern, first
    source whose value is a member of the candidate field set), provided the
    empty string is not a field name (the classifier pass additionally
    requires a truthy value, and Python dicts have unique keys). -/
theorem lookupD_mergeSignals (fields : Fields) (s c g : SigMap) (r : String)
    (hg : (g.map Prod.fst).Nodup) (hs : (s.map Prod.fst).Nodup)
    (hc : (c.map Prod.fst).Nodup) (hne : "" ∉ fields.map Prod.fst) :
    lookupD (mergeSignals fields s c g) r = specMergeAt fields g s c r := by
  have hne' : ∀ f : String, (fields.map Prod.fst).elem f = true → (f != "") = true := by
    intro f hf
    have hm : f ∈ fields.map Prod.fst := List.elem_iff.mp hf
    rcases eq_or_ne f "" with he | he
    · exact absurd (he ▸ hm) hne
    · simpa [bne_iff_ne] using he
  unfold mergeSignals specMergeAt srcPick
  rw [lookupD_mergePhase_rest _ c _ r hc, lookupD_mergePhase_rest _ s _ r hs,
    lookupD_mergePhase_first _ g _ r hg]
  rcases hgl : lookupD g r with _ | f1
  · rcases hsl : lookupD s r with _ | f2
    · simp [lookupD]
    · simp [lookupD]
  · rcases hE : (fields.map Prod.fst).elem f1 with _ | _
    · have hE2 : f1 ∉ fields.map Prod.fst := by simpa using hE
      simp [lookupD, hE2]
    · have hE2 : f1 ∈ fields.map Prod.fst := by simpa using hE
      have hne2 : ¬ f1 = "" := by simpa using hne' f1 hE
      simp [lookupD, hE2, hne2]

/- ==================== key-closure lemmas ==================== -/

theorem keys_foldl {β : Type} (step : SigMap → β → SigMap) (R : List String)
    (hstep : ∀ d b, ∀ p ∈ step d b, p ∈ d ∨ p.1 ∈ R) :
    ∀ (l : List β) (acc : SigMap), (∀ p ∈ acc, p.1 ∈ R) →
      ∀ p ∈ l.foldl step acc, p.1 ∈ R := by
  intro l
  induction l with
  | nil => intro acc hacc p hp; exact hacc p hp
  | cons b t ih =>
    intro acc hacc p hp
    refine ih (step acc b) ?_ p hp
    intro q hq
    rcases hstep acc b q hq with h | h
    · exact hacc q h
    · exact h

theorem setD_case (d : SigMap) (r v : String) (R : List String) (hr : r ∈ R) :
    ∀ p ∈ setD d r v, p ∈ d ∨ p.1 ∈ R := by
  intro p hp
  rcases mem_setD _ _ _ _ hp with ⟨h1, _⟩ | h
  · exact Or.inr (h1 ▸ hr)
  · exact Or.inl h

theorem mem_schemaStep (schema : Schema) (d : SigMap) (ft : String × String) :
    ∀ p ∈ schemaStep schema d ft, p ∈ d ∨ p.1 ∈ requiredRoles := by
  intro p hp
  unfold schemaStep at hp
  rcases hdt : getFieldDatatype schema ft.1 ft.2 with _ | dt
  · rw [hdt] at hp; exact Or.inl hp
  · rw [hdt] at hp
    simp only [] at hp
    split at hp
    · exact Or.inl hp
    · split at hp
      · split at hp
        · exact Or.inl hp
        · exact setD_case d "date" ft.1 requiredRoles (by decide) p hp
      · split at hp
        · split at hp
          · exact Or.inl hp
          · exact setD_case d "measure" ft.1 requiredRoles (by decide) p hp
        · split at hp
          · split at hp
            · exact Or.inl hp
            · exact setD_case d "category" ft.1 requiredRoles (by decide) p hp
          · exact Or.inl hp

theorem mem_cardStep (d : SigMap) (ft : String × String) :
    ∀ p ∈ cardStep d ft, p ∈ d ∨ p.1 ∈ requiredRoles := by
  intro p hp
  unfold cardStep at hp
  split at hp
  · split at hp
    · exact Or.inl hp
    · exact setD_case d "event_index" ft.1 requiredRoles (by decide) p hp
  · split at hp
    · split at hp
      · exact Or.inl hp
      · exact setD_case d "category" ft.1 requiredRoles (by decide) p hp
    · split at hp
      · split at hp
        · exact Or.inl hp
        · exact setD_case d "week_label" ft.1 requiredRoles (by decide) p hp
      · exact Or.inl hp

/-- Every key of the schema signal map is one of the seven roles. -/
theorem keys_analyzeSchemaSignals (schema : Schema) (fields : Fields) :
    ∀ p ∈ analyzeSchemaSignals schema fields, p.1 ∈ requiredRoles :=
  keys_foldl (schemaStep schema) requiredRoles (mem_schemaStep schema) fields []
    (by intro p hp; simp at hp)

/-- Every key of the naming-pattern signal map is one of the seven roles. -/
theorem keys_analyzeCardinality (fields : Fields) :
    ∀ p ∈ analyzeCardinality fields, p.1 ∈ requiredRoles :=
  keys_foldl cardStep requiredRoles mem_cardStep fields []
    (by intro p hp; simp at hp)

theorem mem_mergePhase (guard : SigMap → String × String → Bool) (m : SigMap) :
    ∀ (acc : SigMap) (p : String × String), p ∈ mergePhase guard m acc →
      p.1 ∈ m.map Prod.fst ∨ p ∈ acc := by
  induction m with
  | nil => intro acc p hp; exact Or.inr hp
  | cons q rest ih =>
    intro acc p hp
    have hp' : p ∈ mergePhase guard rest
        (if guard acc q then setD acc q.1 q.2 else acc) := hp
    rcases ih _ p hp' with h | h
    · exact Or.inl (by rw [List.map_cons]; exact List.mem_cons_of_mem _ h)
    · by_cases hg : guard acc q = true
      · rw [if_pos hg] at h
        rcases mem_setD _ _ _ _ h with ⟨h1, _⟩ | h2
        · exact Or.inl (by rw [List.map_cons, h1]; exact List.mem_cons_self _ _)
        · exact Or.inr h2
      · rw [if_neg hg] at h
        exact Or.inr h

/-- Keys of the merged map come from the three signal maps. -/
theorem keys_mergeSignals (fields : Fields) (s c g : SigMap) (R : List String)
    (hs : ∀ p ∈ s, p.1 ∈ R) (hc : ∀ p ∈ c, p.1 ∈ R) (hg : ∀ p ∈ g, p.1 ∈ R) :
    ∀ p ∈ mergeSignals fields s c g, p.1 ∈ R := by
  intro p hp
  unfold mergeSignals at hp
  rcases mem_mergePhase _ c _ p hp with h | h
  · obtain ⟨q, hq, he⟩ := List.mem_map.mp h
    exact he ▸ hc q hq
  · rcases mem_mergePhase _ s _ p h with h2 | h2
    · obtain ⟨q, hq, he⟩ := List.mem_map.mp h2
      exact he ▸ hs q hq
    · rcases mem_mergePhase _ g _ p h2 with h3 | h3
      · obtain ⟨q, hq, he⟩ := List.mem_map.mp h3
        exact he ▸ hg q hq
      · simp at h3

/- ==================== fallback completion lemmas ==================== -/

theorem keys_foldl_mem {β : Type} (step : SigMap → β → SigMap) (R : List String) :
    ∀ (l : List β) (acc : SigMap),
      (∀ d b, b ∈ l → ∀ p ∈ step d b, p ∈ d ∨ p.1 ∈ R) →
      (∀ p ∈ acc, p.1 ∈ R) → ∀ p ∈ l.foldl step acc, p.1 ∈ R := by
  intro l
  induction l with
  | nil => intro acc _ hacc p hp; exact hacc p hp
  | cons b t ih =>
    intro acc hstep hacc p hp
    refine ih (step acc b) (fun d b2 hb2 => hstep d b2 (List.mem_cons_of_mem _ hb2)) ?_ p hp
    intro q hq
    rcases hstep acc b (List.mem_cons_self _ _) q hq with h | h
    · exact hacc q h
    · exact h

theorem keys_fbStep (r : String) (pats : List String) (avail : List String)
    (st : SigMap × List String) :
    ∀ p ∈ (fbStep r pats avail st).1, p ∈ st.1 ∨ p.1 = r := by
  intro p hp
  unfold fbStep at hp
  split at hp
  · rcases hf : avail.find? (fun f => fieldMatches pats f && !st.2.elem f) with _ | f
    · rw [hf] at hp; exact Or.inl hp
    · rw [hf] at hp
      rcases mem_setD _ _ _ _ hp with ⟨h1, _⟩ | h
      · exact Or.inr h1
      · exact Or.inl h
  · exact Or.inl hp

theorem keys_fbCategory (avail : List String) (st : SigMap × List String) :
    ∀ p ∈ (fbCategory avail st).1, p ∈ st.1 ∨ p.1 = "category" := by
  intro p hp
  unfold fbCategory at hp
  split at hp
  · rcases hf : avail.find? (fun f => !st.2.elem f) with _ | f
    · rw [hf] at hp; exact Or.inl hp
    · rw [hf] at hp
      rcases mem_setD _ _ _ _ hp with ⟨h1, _⟩ | h
      · exact Or.inr h1
      · exact Or.inl h
  · exact Or.inl hp

theorem keys_fbLegend (d : SigMap) :
    ∀ p ∈ fbLegend d, p ∈ d ∨ p.1 = "legend" := by
  intro p hp
  unfold fbLegend at hp
  split at hp
  · rcases hw : lookupD d "week_label" with _ | w <;> rw [hw] at hp
    · rcases hc : lookupD d "category" with _ | c0 <;> rw [hc] at hp
      · exact Or.inl hp
      · rcases mem_setD _ _ _ _ hp with ⟨h1, _⟩ | h
        · exact Or.inr h1
        · exact Or.inl h
    · rcases mem_setD _ _ _ _ hp with ⟨h1, _⟩ | h
      · exact Or.inr h1
      · exact Or.inl h
  · exact Or.inl hp

theorem keys_fbMeasure (d : SigMap) :
    ∀ p ∈ fbMeasure d, p ∈ d ∨ p.1 = "measure" := by
  intro p hp
  unfold fbMeasure at hp
  split at hp
  · rcases he : lookupD d "event_index" with _ | e <;> rw [he] at hp
    · exact Or.inl hp
    · rcases mem_setD _ _ _ _ hp with ⟨h1, _⟩ | h
      · exact Or.inr h1
      · exact Or.inl h
  · exact Or.inl hp

theorem keys_fbEventGroup (d : SigMap) :
    ∀ p ∈ fbEventGroup d, p ∈ d ∨ p.1 = "event_group" := by
  intro p hp
  unfold fbEventGroup at hp
  split at hp
  · rcases hd : lookupD d "date" with _ | dt <;> rw [hd] at hp
    · exact Or.inl hp
    · rcases mem_setD _ _ _ _ hp with ⟨h1, _⟩ | h
      · exact Or.inr h1
      · exact Or.inl h
  · exact Or.inl hp

theorem keys_ultimateStep (avail : List String) (d : SigMap) (r : String) :
    ∀ p ∈ ultimateStep avail d r, p ∈ d ∨ p.1 = r := by
  intro p hp
  unfold ultimateStep at hp
  split at hp
  · rcases avail with _ | ⟨f, t⟩
    · exact Or.inl hp
    · rcases mem_setD _ _ _ _ hp with ⟨h1, _⟩ | h
      · exact Or.inr h1
      · exact Or.inl h
  · exact Or.inl hp

/-- Every key of the completed assignment is a key of the input partial
    assignment or one of the seven required roles. -/
theorem keys_applyFallback (fields : Fields) (roles : SigMap) (R : List String)
    (hR : ∀ r ∈ requiredRoles, r ∈ R) (hroles : ∀ p ∈ roles, p.1 ∈ R) :
    ∀ p ∈ applyFallback fields roles, p.1 ∈ R := by
  unfold applyFallback
  refine keys_foldl_mem (ultimateStep (fields.map Prod.fst)) R requiredRoles _ ?_ ?_
  · intro d b hb p hp
    rcases keys_ultimateStep _ d b p hp with h | h
    · exact Or.inl h
    · exact Or.inr (h ▸ hR b hb)
  · intro p hp
    rcases keys_fbEventGroup _ p hp with h | h
    · rcases keys_fbMeasure _ p h with h2 | h2
      · rcases keys_fbLegend _ p h2 with h3 | h3
        · rcases keys_fbCategory _ _ p h3 with h4 | h4
          · unfold steps123 at h4
            rcases keys_fbStep _ _ _ _ p h4 with h5 | h5
            · rcases keys_fbStep _ _ _ _ p h5 with h6 | h6
              · rcases keys_fbStep _ _ _ _ p h6 with h7 | h7
                · exact hroles p h7
                · rw [h7]; exact hR "date" (by decide)
              · rw [h6]; exact hR "event_index" (by decide)
            · rw [h5]; exact hR "week_label" (by decide)
          · rw [h4]; exact hR "category" (by decide)
        · rw [h3]; exact hR "legend" (by decide)
      · rw [h2]; exact hR "measure" (by decide)
    · rw [h]; exact hR "event_group" (by decide)

/- ==================== fallback totality lemmas ==================== -/

theorem hasKey_ultimateStep_of (avail : List String) (d : SigMap) (r k : String)
    (h : hasKey d k = true) : hasKey (ultimateStep avail d r) k = true := by
  unfold ultimateStep
  split
  · rcases avail with _ | ⟨f, t⟩
    · exact h
    · exact hasKey_setD_of d k r f h
  · exact h

theorem hasKey_ultimateStep_self (avail : List String) (d : SigMap) (r : String)
    (hav : avail ≠ []) : hasKey (ultimateStep avail d r) r = true := by
  unfold ultimateStep
  split
  · rcases avail with _ | ⟨f, t⟩
    · exact absurd rfl hav
    · exact hasKey_setD_self d r f
  · next hnr => exact hasKey_of_needRole_false (by simpa using hnr)

theorem hasKey_foldl_ultimate_of (avail : List String) (rs : List String) :
    ∀ (d : SigMap) (k : String), hasKey d k = true →
      hasKey (rs.foldl (ultimateStep avail) d) k = true := by
  induction rs with
  | nil => intro d k h; exact h
  | cons r t ih =>
    intro d k h
    exact ih _ k (hasKey_ultimateStep_of avail d r k h)

/-- After the ultimate fallback, every role in the processed list has a key,
    provided there is at least one available field. -/
theorem hasKey_foldl_ultimate (avail : List String) (hav : avail ≠ []) :
    ∀ (rs : List String) (d : SigMap) (r : String), r ∈ rs →
      hasKey (rs.foldl (ultimateStep avail) d) r = true := by
  intro rs
  induction rs with
  | nil => intro d r h; exact absurd h (List.not_mem_nil r)
  | cons q t ih =>
    intro d r h
    rcases List.mem_cons.mp h with he | ht
    · subst he
      exact hasKey_foldl_ultimate_of avail t _ r (hasKey_ultimateStep_self avail d r hav)
    · exact ih _ r ht

/- ==================== fallback value-closure lemmas ==================== -/

theorem vals_setD (d : SigMap) (A : List String) (k v : String)
    (hd : ∀ p ∈ d, p.2 ∈ A) (hv : v ∈ A) : ∀ p ∈ setD d k v, p.2 ∈ A := by
  intro p hp
  rcases mem_setD _ _ _ _ hp with ⟨_, h2⟩ | h
  · rw [h2]; exact hv
  · exact hd p h

theorem vals_fbStep (r : String) (pats : List String) (avail : List String)
    (st : SigMap × List String) (A : List String)
    (hsub : ∀ f ∈ avail, f ∈ A) (hd : ∀ p ∈ st.1, p.2 ∈ A) :
    ∀ p ∈ (fbStep r pats avail st).1, p.2 ∈ A := by
  intro p hp
  unfold fbStep at hp
  split at hp
  · rcases hf : avail.find? (fun f => fieldMatches pats f && !st.2.elem f) with _ | f
    · rw [hf] at hp; exact hd p hp
    · rw [hf] at hp
      exact vals_setD st.1 A r f hd (hsub f (List.mem_of_find?_eq_some hf)) p hp
  · exact hd p hp

theorem vals_fbCategory (avail : List String) (st : SigMap × List String)
    (A : List String) (hsub : ∀ f ∈ avail, f ∈ A) (hd : ∀ p ∈ st.1, p.2 ∈ A) :
    ∀ p ∈ (fbCategory avail st).1, p.2 ∈ A := by
  intro p hp
  unfold fbCategory at hp
  split at hp
  · rcases hf : avail.find? (fun f => !st.2.elem f) with _ | f
    · rw [hf] at hp; exact hd p hp
    · rw [hf] at hp
      exact vals_setD st.1 A "category" f hd (hsub f (List.mem_of_find?_eq_some hf)) p hp
  · exact hd p hp

theorem vals_fbLegend (d : SigMap) (A : List String) (hd : ∀ p ∈ d, p.2 ∈ A) :
    ∀ p ∈ fbLegend d, p.2 ∈ A := by
  intro p hp
  unfold fbLegend at hp
  split at hp
  · rcases hw : lookupD d "week_label" with _ | w <;> rw [hw] at hp
    · rcases hc : lookupD d "category" with _ | c0 <;> rw [hc] at hp
      · exact hd p hp
      · exact vals_setD d A "legend" c0 hd (hd _ (mem_of_lookupD d "category" c0 hc)) p hp
    · exact vals_setD d A "legend" w hd (hd _ (mem_of_lookupD d "week_label" w hw)) p hp
  · exact hd p hp

theorem vals_fbMeasure (d : SigMap) (A : List String) (hd : ∀ p ∈ d, p.2 ∈ A) :
    ∀ p ∈ fbMeasure d, p.2 ∈ A := by
  intro p hp
  unfold fbMeasure at hp
  split at hp
  · rcases he : lookupD d "event_index" with _ | e <;> rw [he] at hp
    · exact hd p hp
    · exact vals_setD d A "measure" e hd (hd _ (mem_of_lookupD d "event_index" e he)) p hp
  · exact hd p hp

theorem vals_fbEventGroup (d : SigMap) (A : List String) (hd : ∀ p ∈ d, p.2 ∈ A) :
    ∀ p ∈ fbEventGroup d, p.2 ∈ A := by
  intro p hp
  unfold fbEventGroup at hp
  split at hp
  · rcases hdt : lookupD d "date" with _ | dt <;> rw [hdt] at hp
    · exact hd p hp
    · exact vals_setD d A "event_group" dt hd (hd _ (mem_of_lookupD d "date" dt hdt)) p hp
  · exact hd p hp

theorem vals_ultimateStep (avail : List String) (d : SigMap) (r : String)
    (A : List String) (hsub : ∀ f ∈ avail, f ∈ A) (hd : ∀ p ∈ d, p.2 ∈ A) :
    ∀ p ∈ ultimateStep avail d r, p.2 ∈ A := by
  intro p hp
  unfold ultimateStep at hp
  split at hp
  · rcases avail with _ | ⟨f, t⟩
    · exact hd p hp
    · exact vals_setD d A r f hd (hsub f (List.mem_cons_self f t)) p hp
  · exact hd p hp

theorem vals_foldl_ultimate (avail : List String) (A : List String)
    (hsub : ∀ f ∈ avail, f ∈ A) :
    ∀ (rs : List String) (d : SigMap), (∀ p ∈ d, p.2 ∈ A) →
      ∀ p ∈ rs.foldl (ultimateStep avail) d, p.2 ∈ A := by
  intro rs
  induction rs with
  | nil => intro d hd p hp; exact hd p hp
  | cons r t ih =>
    intro d hd p hp
    exact ih _ (vals_ultimateStep avail d r A hsub hd) p hp

/- ==================== fallback stability lemmas ==================== -/

theorem lookupD_fbLegend_ne (d : SigMap) (k : String) (h : k ≠ "legend") :
    lookupD (fbLegend d) k = lookupD d k := by
  unfold fbLegend
  split
  · rcases lookupD d "week_label" with _ | w
    · rcases lookupD d "category" with _ | c0
      · rfl
      · exact lookupD_setD_ne d "legend" k c0 (Ne.symm h)
    · exact lookupD_setD_ne d "legend" k w (Ne.symm h)
  · rfl

theorem lookupD_fbMeasure_ne (d : SigMap) (k : String) (h : k ≠ "measure") :
    lookupD (fbMeasure d) k = lookupD d k := by
  unfold fbMeasure
  split
  · rcases lookupD d "event_index" with _ | e
    · rfl
    · exact lookupD_setD_ne d "measure" k e (Ne.symm h)
  · rfl

theorem lookupD_fbEventGroup_ne (d : SigMap) (k : String) (h : k ≠ "event_group") :
    lookupD (fbEventGroup d) k = lookupD d k := by
  unfold fbEventGroup
  split
  · rcases lookupD d "date" with _ | dt
    · rfl
    · exact lookupD_setD_ne d "event_group" k dt (Ne.symm h)
  · rfl

/-- The ultimate fallback never overwrites a role already carrying a truthy
    field. -/
theorem lookupD_foldl_ultimate_stable (avail : List String) :
    ∀ (rs : List String) (d : SigMap) (k v : String),
      lookupD d k = some v → v ≠ "" →
      lookupD (rs.foldl (ultimateStep avail) d) k = some v := by
  intro rs
  induction rs with
  | nil => intro d k v h _; exact h
  | cons r t ih =>
    intro d k v h hv
    refine ih _ k v ?_ hv
    unfold ultimateStep
    by_cases hr : r = k
    · subst hr
      have hnr : needRole d r = false := by
        unfold needRole
        rw [h]
        simpa using hv
      rw [if_neg (by rw [hnr]; simp)]
      exact h
    · split
      · rcases avail with _ | ⟨f, t2⟩
        · exact h
        · rw [lookupD_setD_ne d r k f hr]; exact h
      · exact h

/- ==================== matcher lemmas ==================== -/

theorem foldl_max_init_le (l : List Int) : ∀ a : Int, a ≤ l.foldl max a := by
  induction l with
  | nil => intro a; exact le_refl a
  | cons x t ih =>
    intro a
    exact le_trans (le_max_left a x) (ih (max a x))

theorem foldl_max_le_of_mem (l : List Int) :
    ∀ (a x : Int), x ∈ l → x ≤ l.foldl max a := by
  induction l with
  | nil => intro a x h; exact absurd h (List.not_mem_nil x)
  | cons y t ih =>
    intro a x h
    rcases List.mem_cons.mp h with he | ht
    · subst he
      exact le_trans (le_max_right a x) (foldl_max_init_le t (max a x))
    · exact ih (max a y) x ht

theorem foldl_max_cases (l : List Int) :
    ∀ a : Int, l.foldl max a = a ∨ l.foldl max a ∈ l := by
  induction l with
  | nil => intro a; exact Or.inl rfl
  | cons x t ih =>
    intro a
    rcases ih (max a x) with h | h
    · rcases le_or_lt x a with hle | hlt
      · left
        rw [List.foldl_cons, h, max_eq_left hle]
      · right
        rw [List.foldl_cons, h, max_eq_right (le_of_lt hlt)]
        exact List.mem_cons_self x t
    · right
      rw [List.foldl_cons]
      exact List.mem_cons_of_mem x h

theorem foldl_max_lt (l : List Int) (a c : Int) (ha : a < c)
    (hl : ∀ x ∈ l, x < c) : l.foldl max a < c := by
  rcases foldl_max_cases l a with h | h
  · rw [h]; exact ha
  · exact hl _ h

theorem runMatch_bestScore : ∀ (ps : List (Visual × Int)) (st : MatchState),
    (runMatch st ps).bestScore = (ps.map Prod.snd).foldl max st.bestScore := by
  intro ps
  induction ps with
  | nil => intro st; rfl
  | cons p t ih =>
    intro st
    show (runMatch (if st.bestScore < p.2 then ⟨some p.1, p.2⟩ else st) t).bestScore = _
    rw [ih, List.map_cons, List.foldl_cons]
    congr 1
    by_cases h : st.bestScore < p.2
    · rw [if_pos h]; exact (max_eq_right (le_of_lt h)).symm
    · rw [if_neg h]; exact (max_eq_left (not_lt.mp h)).symm

theorem runMatch_stable : ∀ (ps : List (Visual × Int)) (st : MatchState),
    (∀ q ∈ ps, q.2 ≤ st.bestScore) → runMatch st ps = st := by
  intro ps
  induction ps with
  | nil => intro st _; rfl
  | cons p t ih =>
    intro st h
    show runMatch (if st.bestScore < p.2 then ⟨some p.1, p.2⟩ else st) t = st
    rw [if_neg (not_lt.mpr (h p (List.mem_cons_self p t)))]
    exact ih st (fun q hq => h q (List.mem_cons_of_mem p hq))

/-- The matcher's winner: with the final best score strictly above the start
    state, the reported visual is the one of the first (candidate, score)
    pair whose score attains the maximum (ties keep the first seen). -/
theorem runMatch_first : ∀ (ps : List (Visual × Int)) (st : MatchState) (M : Int),
    st.bestScore < M → (ps.map Prod.snd).foldl max st.bestScore = M →
    (runMatch st ps).best = (ps.find? (fun p => p.2 == M)).map Prod.fst := by
  intro ps
  induction ps with
  | nil =>
    intro st M hlt hM
    have h0 : st.bestScore = M := hM
    exact absurd (h0 ▸ hlt) (lt_irrefl M)
  | cons p t ih =>
    intro st M hlt hM
    have hM' : (t.map Prod.snd).foldl max (max st.bestScore p.2) = M := by
      rw [← hM, List.map_cons, List.foldl_cons]
    by_cases hpM : p.2 = M
    · have hup : st.bestScore < p.2 := hpM ▸ hlt
      show (runMatch (if st.bestScore < p.2 then ⟨some p.1, p.2⟩ else st) t).best = _
      rw [if_pos hup]
      have hstable : runMatch (⟨some p.1, p.2⟩ : MatchState) t = ⟨some p.1, p.2⟩ := by
        apply runMatch_stable
        intro q hq
        show q.2 ≤ p.2
        rw [hpM]
        have := foldl_max_le_of_mem (t.map Prod.snd) (max st.bestScore p.2) q.2
          (List.mem_map_of_mem Prod.snd hq)
        rw [hM'] at this
        exact this
      rw [hstable, List.find?_cons_of_pos _ (by simpa using hpM)]
      rfl
    · have hple : p.2 ≤ M := by
        have := foldl_max_le_of_mem ((p :: t).map Prod.snd) st.bestScore p.2 (by simp)
        rw [hM] at this
        exact this
      have hplt : p.2 < M := lt_of_le_of_ne hple hpM
      show (runMatch (if st.bestScore < p.2 then ⟨some p.1, p.2⟩ else st) t).best = _
      rw [List.find?_cons_of_neg _ (by simpa using hpM)]
      by_cases hup : st.bestScore < p.2
      · rw [if_pos hup]
        rw [max_eq_right (le_of_lt hup)] at hM'
        exact ih ⟨some p.1, p.2⟩ M hplt hM'
      · rw [if_neg hup]
        rw [max_eq_left (not_lt.mp hup)] at hM'
        exact ih st M hlt hM'

theorem mem_allPairs (tn : List Char) : ∀ (vs : List Visual) (v : Visual) (a : String),
    v ∈ vs → a ∈ consideredAttrs v →
    (v, scoreAttr tn (norm a).data) ∈ allPairs tn vs := by
  intro vs
  induction vs with
  | nil => intro v a h _; exact absurd h (List.not_mem_nil v)
  | cons w t ih =>
    intro v a hv ha
    rcases List.mem_cons.mp hv with he | ht
    · subst he
      exact List.mem_append_left _ (List.mem_map.mpr ⟨a, ha, rfl⟩)
    · exact List.mem_append_right _ (ih v a ht ha)

theorem allPairs_elim (tn : List Char) : ∀ (vs : List Visual) (q : Visual × Int),
    q ∈ allPairs tn vs →
    ∃ v ∈ vs, ∃ a ∈ consideredAttrs v, q = (v, scoreAttr tn (norm a).data) := by
  intro vs
  induction vs with
  | nil => intro q h; exact absurd h (List.not_mem_nil q)
  | cons w t ih =>
    intro q hq
    have hq' : q ∈ visualPairs tn w ++ allPairs tn t := hq
    rcases List.mem_append.mp hq' with h | h
    · obtain ⟨a, ha, he⟩ := List.mem_map.mp h
      exact ⟨w, List.mem_cons_self w t, a, ha, he.symm⟩
    · obtain ⟨v, hv, a, ha, he⟩ := ih q h
      exact ⟨v, List.mem_cons_of_mem w hv, a, ha, he⟩

/-- The matcher, on a truthy target, returns exactly the first candidate
    attaining the maximal score when that score reaches 50, and nothing
    otherwise. -/
theorem smart_match_eq (target : String) (vs : List Visual) (ht : target ≠ "") :
    smart_match_chart target vs =
      if 50 ≤ maxScore target vs then
        ((allPairs (norm target).data vs).find?
          (fun p => p.2 == maxScore target vs)).map Prod.fst
      else none := by
  unfold smart_match_chart
  rw [if_neg (by simp [ht])]
  have hbs : (runMatch ⟨none, 0⟩ (allPairs (norm target).data vs)).bestScore
      = maxScore target vs := runMatch_bestScore _ _
  rw [hbs]
  by_cases h50 : 50 ≤ maxScore target vs
  · rw [if_pos h50, if_pos h50]
    exact runMatch_first _ ⟨none, 0⟩ (maxScore target vs)
      (lt_of_lt_of_le (by norm_num) h50) rfl
  · rw [if_neg h50, if_neg h50]

/-- The matcher returns a candidate exactly when the target is truthy and the
    best score over all candidates and attributes reaches 50. -/
theorem smart_match_isSome (target : String) (vs : List Visual) :
    (smart_match_chart target vs).isSome = true ↔
      (target ≠ "" ∧ 50 ≤ maxScore target vs) := by
  constructor
  · intro h
    by_cases ht : target = ""
    · subst ht
      simp [smart_match_chart] at h
    · refine ⟨ht, ?_⟩
      by_contra h50
      rw [smart_match_eq target vs ht, if_neg h50] at h
      simp at h
  · rintro ⟨ht, h50⟩
    rw [smart_match_eq target vs ht, if_pos h50]
    have hmem : maxScore target vs ∈ (allPairs (norm target).data vs).map Prod.snd := by
      rcases foldl_max_cases ((allPairs (norm target).data vs).map Prod.snd) 0 with h | h
      · have h0 : maxScore target vs = 0 := h
        rw [h0] at h50
        norm_num at h50
      · exact h
    obtain ⟨q, hq, he⟩ := List.mem_map.mp hmem
    have hfs : ((allPairs (norm target).data vs).find?
        (fun p => p.2 == maxScore target vs)).isSome = true := by
      rw [List.find?_isSome]
      exact ⟨q, hq, by simp [he]⟩
    rcases hf : (allPairs (norm target).data vs).find?
        (fun p => p.2 == maxScore target vs) with _ | p
    · rw [hf] at hfs; simp at hfs
    · rw [hf]; rfl

theorem occursIn_nil (s : List Char) : occursIn [] s = true := by
  cases s with
  | nil => rfl
  | cons b bs => simp [occursIn, leadsWith]

/-- Against an empty normalized target, every non-empty attribute scores
    through the containment branch: 80 minus its normalized length. -/
theorem scoreAttr_nil_left (cn : List Char) (hcn : cn ≠ []) :
    scoreAttr [] cn = 80 - (cn.length : Int) := by
  unfold scoreAttr
  rw [if_neg (by simpa using hcn), if_pos (occursIn_nil cn)]
  simp

/- ==================== hierarchy detection lemmas ==================== -/

theorem leadsWithCI_weekday_week (s : List Char)
    (h : leadsWithCI ("Weekday").data s = true) :
    leadsWithCI ("Week").data s = true := by
  have hd : ("Weekday").data = ['W', 'e', 'e', 'k', 'd', 'a', 'y'] := rfl
  have hd4 : ("Week").data = ['W', 'e', 'e', 'k'] := rfl
  rw [hd] at h
  rw [hd4]
  rcases s with _ | ⟨a, _ | ⟨b, _ | ⟨c, _ | ⟨d, t⟩⟩⟩⟩
  · simp [leadsWithCI] at h
  · simp [leadsWithCI] at h
  · simp [leadsWithCI] at h
  · simp [leadsWithCI] at h
  · simp only [leadsWithCI, Bool.and_eq_true] at h ⊢
    exact ⟨h.1, h.2.1, h.2.2.1, h.2.2.2.1, trivial⟩

/-- The Weekday alternative of the regex can never win: any position where
    it matches is a position where the earlier Week alternative matches. -/
theorem find?_keyword_ne_weekday (s : List Char) :
    hierKeywords.find? (fun k => leadsWithCI k.data s) ≠ some "Weekday" := by
  intro h
  have hwd : leadsWithCI ("Weekday").data s = true := by
    simpa using List.find?_some h
  have hw : leadsWithCI ("Week").data s = true := leadsWithCI_weekday_week s hwd
  unfold hierKeywords at h
  rcases hq : leadsWithCI ("Quarter").data s with _ | _
  · rcases hm : leadsWithCI ("Month").data s with _ | _
    · rcases hy : leadsWithCI ("Year").data s with _ | _
      · rw [List.find?_cons_of_neg _ (by simp [hq]), List.find?_cons_of_neg _ (by simp [hm]),
          List.find?_cons_of_neg _ (by simp [hy]),
          List.find?_cons_of_pos _ (by simp [hw])] at h
        exact absurd (Option.some.inj h) (by decide)
      · rw [List.find?_cons_of_neg _ (by simp [hq]), List.find?_cons_of_neg _ (by simp [hm]),
          List.find?_cons_of_pos _ (by simp [hy])] at h
        exact absurd (Option.some.inj h) (by decide)
    · rw [List.find?_cons_of_neg _ (by simp [hq]),
        List.find?_cons_of_pos _ (by simp [hm])] at h
      exact absurd (Option.some.inj h) (by decide)
  · rw [List.find?_cons_of_pos _ (by simp [hq])] at h
    exact absurd (Option.some.inj h) (by decide)

/-- Wherever the Week alternative matches, the position match is the
    four-character slice (Quarter, Month and Year cannot match there). -/
theorem searchKeywordAt_week (s : List Char)
    (h : leadsWithCI ("Week").data s = true) :
    searchKeywordAt? s = some (s.take 4) := by
  rcases s with _ | ⟨c, s1⟩
  · rw [show ("Week").data = ['W', 'e', 'e', 'k'] from rfl] at h
    simp [leadsWithCI] at h
  · have h0 := h
    rw [show ("Week").data = ['W', 'e', 'e', 'k'] from rfl] at h
    simp only [leadsWithCI, Bool.and_eq_true] at h
    have hc : c.toLower = 'w' := by
      have h1 : ('w' == c.toLower) = true := by
        rw [show 'w' = Char.toLower 'W' from by decide]
        exact h.1
      exact (beq_iff_eq.mp h1).symm
    have hq : leadsWithCI ("Quarter").data (c :: s1) = false := by
      rw [show ("Quarter").data = ['Q', 'u', 'a', 'r', 't', 'e', 'r'] from rfl]
      simp only [leadsWithCI, hc]
      rw [show (Char.toLower 'Q' == 'w') = false from by decide]
      simp
    have hm : leadsWithCI ("Month").data (c :: s1) = false := by
      rw [show ("Month").data = ['M', 'o', 'n', 't', 'h'] from rfl]
      simp only [leadsWithCI, hc]
      rw [show (Char.toLower 'M' == 'w') = false from by decide]
      simp
    have hy : leadsWithCI ("Year").data (c :: s1) = false := by
      rw [show ("Year").data = ['Y', 'e', 'a', 'r'] from rfl]
      simp only [leadsWithCI, hc]
      rw [show (Char.toLower 'Y' == 'w') = false from by decide]
      simp
    unfold searchKeywordAt? hierKeywords
    rw [List.find?_cons_of_neg _ (by simp [hq]), List.find?_cons_of_neg _ (by simp [hm]),
      List.find?_cons_of_neg _ (by simp [hy]), List.find?_cons_of_pos _ (by simp [h0])]
    rfl

theorem findSome?_all_none {α β : Type} (f : α → Option β) :
    ∀ l : List α, (∀ x ∈ l, f x = none) → l.findSome? f = none := by
  intro l
  induction l with
  | nil => intro _; rfl
  | cons a t ih =>
    intro h
    have ha := h a (List.mem_cons_self a t)
    rw [List.findSome?_cons, ha]
    exact ih (fun x hx => h x (List.mem_cons_of_mem a hx))

/- ==================== claim theorems ==================== -/

/-- C1: Fallback completion is total: for every non-empty candidate field set
    and every partial role assignment (including the empty one),
    `_apply_fallback_logic` returns an assignment in which each of the seven
    roles carries a binding; and when every role of the input partial
    assignment maps to a member of the candidate field set, every value of
    the result is a member of the candidate field set. -/
theorem C1_fallback_total (fields : Fields) (roles : SigMap) (hne : fields ≠ []) :
    (∀ r ∈ requiredRoles, hasKey (applyFallback fields roles) r = true) ∧
    ((∀ p ∈ roles, p.2 ∈ fields.map Prod.fst) →
      ∀ p ∈ applyFallback fields roles, p.2 ∈ fields.map Prod.fst) := by
  have hav : fields.map Prod.fst ≠ [] := by
    intro h
    exact hne (List.map_eq_nil_iff.mp h)
  constructor
  · intro r hr
    unfold applyFallback
    exact hasKey_foldl_ultimate (fields.map Prod.fst) hav requiredRoles _ r hr
  · intro hroles
    unfold applyFallback
    apply vals_foldl_ultimate _ _ (fun f hf => hf)
    apply vals_fbEventGroup
    apply vals_fbMeasure
    apply vals_fbLegend
    apply vals_fbCategory _ _ _ (fun f hf => hf)
    unfold steps123
    apply vals_fbStep _ _ _ _ _ (fun f hf => hf)
    apply vals_fbStep _ _ _ _ _ (fun f hf => hf)
    apply vals_fbStep _ _ _ _ _ (fun f hf => hf)
    exact hroles

/-- Witness for C1 at a concrete one-field set and the empty assignment. -/
theorem C1_fallback_total_witness :
    (∀ r ∈ requiredRoles, hasKey (applyFallback [("F", "T")] []) r = true) ∧
    (∀ p ∈ applyFallback [("F", "T")] [], p.2 ∈ [("F", "T")].map Prod.fst) := by
  have h := C1_fallback_total [("F", "T")] [] (by decide)
  exact ⟨h.1, h.2 (by decide)⟩

/-- C2: signal merging respects the priority classifier > schema >
    naming-pattern: per role the merge result equals the spec-side pick of
    the highest-priority source naming a member of the candidate field set
    (the field set may not contain a field named by the empty string, since
    the classifier pass also requires a truthy value; Python dicts have
    unique keys, hence the Nodup hypotheses), and a role filled by the
    classifier with a member field is never overwritten. -/
theorem C2_merge_priority (fields : Fields) (g s c : SigMap) (r : String)
    (hg : (g.map Prod.fst).Nodup) (hs : (s.map Prod.fst).Nodup)
    (hc : (c.map Prod.fst).Nodup) (hne : "" ∉ fields.map Prod.fst) :
    lookupD (mergeSignals fields s c g) r = specMergeAt fields g s c r ∧
    (∀ f, lookupD g r = some f → f ∈ fields.map Prod.fst →
      lookupD (mergeSignals fields s c g) r = some f) := by
  have hmain := lookupD_mergeSignals fields s c g r hg hs hc hne
  refine ⟨hmain, fun f hf hmem => ?_⟩
  rw [hmain]
  unfold specMergeAt srcPick
  rw [hf]
  simp [hmem]

/-- Witness for C2: three signal maps that disagree on role date, all three
    proposed fields members of the field set; the classifier's value wins. -/
theorem C2_merge_priority_witness :
    lookupD (mergeSignals [("A", "T"), ("B", "T"), ("C", "T")]
      [("date", "B")] [("date", "C")] [("date", "A")]) "date" = some "A" :=
  (C2_merge_priority [("A", "T"), ("B", "T"), ("C", "T")]
    [("date", "A")] [("date", "B")] [("date", "C")] "date"
    (by decide) (by decide) (by decide) (by decide)).2 "A" (by decide) (by decide)

/-- C3: on fields Txn_Date, Row_Id, Region of SalesTable with no classifier
    signal and no schema types, merge-then-fallback yields exactly
    date=Txn_Date, event_index=Row_Id, category=Region, week_label=Txn_Date
    (ultimate first-field fallback), legend=Region (reusing category),
    measure=Row_Id (reusing event_index), event_group=Txn_Date (reusing
    date). -/
theorem C3_merge_fallback_scenario :
    lookupD salesPipeline "date" = some "Txn_Date" ∧
    lookupD salesPipeline "event_index" = some "Row_Id" ∧
    lookupD salesPipeline "category" = some "Region" ∧
    lookupD salesPipeline "week_label" = some "Txn_Date" ∧
    lookupD salesPipeline "legend" = some "Region" ∧
    lookupD salesPipeline "measure" = some "Row_Id" ∧
    lookupD salesPipeline "event_group" = some "Txn_Date" := by
  decide

/-- C4: any failure of the external classification call (service error) or of
    parsing its response text (non-JSON or malformed payload) makes the
    classifier adapter return the empty SignalMap instead of raising. -/
theorem C4_classifier_failure (call : Except String String)
    (parseJson : String → Except String SigMap)
    (hfail : (∃ e, call = Except.error e) ∨
      (∀ t, call = Except.ok t →
        ∃ e, parseJson (cleanResponseText t) = Except.error e)) :
    askGeminiForClassification call parseJson = [] := by
  rcases call with e | t
  · rfl
  · rcases hfail with ⟨e, he⟩ | hok
    · exact absurd he (by simp)
    · obtain ⟨e, he⟩ := hok t rfl
      simp [askGeminiForClassification, he]

/-- Witness for C4: a failed service call yields the empty SignalMap. -/
theorem C4_classifier_failure_witness :
    askGeminiForClassification (Except.error "service unavailable")
      (fun _ => Except.error "invalid json") = [] :=
  C4_classifier_failure _ _ (Or.inl ⟨"service unavailable", rfl⟩)

/-- C5: the matcher returns a candidate exactly when the target is truthy and
    the best score over all candidates and attributes reaches 50; an empty
    target or empty pool yields no match; when a match is returned it is the
    first-seen candidate attaining the highest score (ties keep the first);
    and exact equality of normalized strings (score 100) of a considered
    attribute always yields a match.  The function is total on strings. -/
theorem C5_matcher_threshold (target : String) (vs : List Visual) :
    ((smart_match_chart target vs).isSome = true ↔
      (target ≠ "" ∧ 50 ≤ maxScore target vs)) ∧
    (target = "" → smart_match_chart target vs = none) ∧
    (vs = [] → smart_match_chart target vs = none) ∧
    (target ≠ "" → 50 ≤ maxScore target vs →
      smart_match_chart target vs =
        ((allPairs (norm target).data vs).find?
          (fun p => p.2 == maxScore target vs)).map Prod.fst) ∧
    (∀ v ∈ vs, ∀ a ∈ consideredAttrs v, target ≠ "" → norm a = norm target →
      (smart_match_chart target vs).isSome = true) := by
  refine ⟨smart_match_isSome target vs, ?_, ?_, ?_, ?_⟩
  · intro ht
    subst ht
    simp [smart_match_chart]
  · intro hvs
    subst hvs
    by_cases ht : target = ""
    · subst ht
      simp [smart_match_chart]
    · rw [smart_match_eq target [] ht]
      simp [maxScore, allPairs]
  · intro ht h50
    rw [smart_match_eq target vs ht, if_pos h50]
  · intro v hv a ha ht hn
    rw [smart_match_isSome]
    refine ⟨ht, ?_⟩
    have hp := mem_allPairs (norm target).data vs v a hv ha
    have hs100 : scoreAttr (norm target).data (norm a).data = 100 := by
      unfold scoreAttr
      rw [hn]
      simp
    have hle : scoreAttr (norm target).data (norm a).data ≤ maxScore target vs :=
      foldl_max_le_of_mem _ 0 _ (List.mem_map_of_mem Prod.snd hp)
    rw [hs100] at hle
    linarith

/-- Witness for C5: a tie on score 100 keeps the first-seen candidate. -/
theorem C5_matcher_threshold_witness :
    smart_match_chart "Abc" [⟨"ABC", ""⟩, ⟨"abc", "x"⟩] = some ⟨"ABC", ""⟩ := by
  have h := (C5_matcher_threshold "Abc" [⟨"ABC", ""⟩, ⟨"abc", "x"⟩]).2.2.2.1
    (by decide) (by decide)
  rw [h]
  decide

/-- C6 counterexample: in the quoted scenario the second candidate scores 60
    through the reverse-containment branch (normalized "region" is a
    substring of normalized "salesbyregion"), not 50 through token overlap as
    the claim asserts. -/
theorem C6_counterexample :
    scoreAttr (norm "Sales by Region").data (norm "Region").data = 60 ∧
    scoreAttr (norm "Sales by Region").data (norm "Region").data ≠ 50 := by
  decide

/-- C6 amended: target "Sales by Region" against titles
    "Sales by Region (2024)" and "Region": the first candidate scores
    80 − (17 − 13) = 76 via containment, the second scores 60 via the
    reverse-containment branch (its normalized title is a substring of the
    normalized target; the token-overlap branch is not reached), and the
    matcher returns the first candidate. -/
theorem C6_matcher_scenario :
    scoreAttr (norm "Sales by Region").data (norm "Sales by Region (2024)").data = 76 ∧
    scoreAttr (norm "Sales by Region").data (norm "Region").data = 60 ∧
    smart_match_chart "Sales by Region"
        [⟨"Sales by Region (2024)", ""⟩, ⟨"Region", ""⟩]
      = some ⟨"Sales by Region (2024)", ""⟩ := by
  decide

/-- C7 counterexample: with fields [Alpha, Beta] and merged roles
    {date: Alpha}, the category fallback does NOT take the first field Alpha
    (which is used by date); it takes Beta — the used-fields exclusion does
    apply at step 4. -/
theorem C7_counterexample :
    lookupD (applyFallback [("Alpha", "T"), ("Beta", "T")] [("date", "Alpha")])
      "category" = some "Beta" ∧
    lookupD (applyFallback [("Alpha", "T"), ("Beta", "T")] [("date", "Alpha")])
      "category" ≠ some "Alpha" := by
  decide

/-- C7 amended: the used-fields exclusion applies in steps 1-4: when category
    is unfilled after merging and after the date/event_index/week_label
    steps, it is assigned the first candidate field NOT used by the roles
    already filled (input values and steps 1-3); only the ultimate step 8
    fallback has no exclusion. -/
theorem C7_category_excludes_used (fields : Fields) (roles : SigMap) (f : String)
    (h1 : needRole (steps123 (fields.map Prod.fst) roles).1 "category" = true)
    (h2 : (fields.map Prod.fst).find?
      (fun x => !(steps123 (fields.map Prod.fst) roles).2.elem x) = some f)
    (h3 : f ≠ "") :
    lookupD (applyFallback fields roles) "category" = some f := by
  have hcat : lookupD (fbCategory (fields.map Prod.fst)
      (steps123 (fields.map Prod.fst) roles)).1 "category" = some f := by
    unfold fbCategory
    rw [if_pos h1, h2]
    exact lookupD_setD_self _ _ _
  unfold applyFallback
  refine lookupD_foldl_ultimate_stable _ requiredRoles _ "category" f ?_ h3
  rw [lookupD_fbEventGroup_ne _ _ (by decide), lookupD_fbMeasure_ne _ _ (by decide),
    lookupD_fbLegend_ne _ _ (by decide)]
  exact hcat

/-- Witness for C7 at the two-field scenario: Alpha is used by date, so
    category gets Beta. -/
theorem C7_category_excludes_used_witness :
    lookupD (applyFallback [("Alpha", "T"), ("Beta", "T")] [("date", "Alpha")])
      "category" = some "Beta" :=
  C7_category_excludes_used [("Alpha", "T"), ("Beta", "T")] [("date", "Alpha")] "Beta"
    (by decide) (by decide) (by decide)

/-- C8 counterexample: for a hint string reading "Weekday" the detected level
    is "Week", not "Weekday" (the regex alternation tries Week first). -/
theorem C8_counterexample :
    detectHierarchyType ["Weekday"] = "Week" ∧
    detectHierarchyType ["Weekday"] ≠ "Weekday" := by
  decide

/-- C8 amended: the hierarchy level is the first case-insensitive keyword
    occurrence in the ordered hint strings, where at a matching position the
    alternatives are tried in the order Quarter, Month, Year, Week, Weekday;
    hence wherever Week matches the four-character slice is taken and the
    Weekday alternative can never win — a hint reading "Weekday" yields
    "Week"; with no keyword anywhere the default is "Quarter"; and the level
    is encoded into the event_group reference string by the projector. -/
theorem C8_hierarchy_level :
    (∀ s : List Char, leadsWithCI ("Week").data s = true →
      searchKeywordAt? s = some (s.take 4)) ∧
    (∀ s : List Char,
      hierKeywords.find? (fun k => leadsWithCI k.data s) ≠ some "Weekday") ∧
    (∀ hs : List String, (∀ x ∈ hs, searchKeyword x.data = none) →
      detectHierarchyType hs = "Quarter") ∧
    (detectHierarchyType ["Weekday"] = "Week") ∧
    (∀ htype table field : String, field ≠ "" →
      lookupD (projectRoles [(field, table)] htype [("event_group", field)])
          "event_group"
        = some (table ++ "." ++ field ++ ".Variation.Date Hierarchy." ++ htype,
            table)) := by
  refine ⟨searchKeywordAt_week, find?_keyword_ne_weekday, ?_, by decide, ?_⟩
  · intro hs h
    unfold detectHierarchyType
    rw [findSome?_all_none _ hs h]
  · intro htype table field hf
    unfold projectRoles
    simp only [List.foldl_cons, List.foldl_nil]
    rw [if_neg (by simpa using hf)]
    rw [show lookupD [(field, table)] field = some table from by simp [lookupD]]
    simp [setD, lookupD, buildQueryRef]

/-- Witness for C8: the "Weekday" hint matches as "Week", the empty hint list
    defaults to "Quarter", and the level lands in the event_group queryRef. -/
theorem C8_hierarchy_level_witness :
    searchKeywordAt? ("Weekday").data = some ("Week").data ∧
    detectHierarchyType [] = "Quarter" ∧
    lookupD (projectRoles [("D", "T")] "Week" [("event_group", "D")]) "event_group"
      = some ("T.D.Variation.Date Hierarchy.Week", "T") := by
  have h := C8_hierarchy_level
  refine ⟨?_, h.2.2.1 [] (by decide), h.2.2.2.2 "Week" "T" "D" (by decide)⟩
  have h2 := h.1 ("Weekday").data (by decide)
  rw [h2]
  decide

/-- C9 counterexample: the non-empty target "!!!" normalizes to the empty
    string, the single candidate's attribute "abc" normalizes to a non-empty
    string, yet the matcher returns the candidate (score 80 − 3 = 77), not
    "no match" as the claim asserts. -/
theorem C9_counterexample :
    smart_match_chart "!!!" [⟨"abc", ""⟩] = some ⟨"abc", ""⟩ ∧
    "!!!" ≠ "" ∧ norm "!!!" = "" ∧ (norm "abc").data.length ≠ 0 := by
  decide

/-- C9 amended: the containment branch applies whenever the normalized target
    is a substring of the normalized attribute, including the empty target:
    a non-empty target normalizing to the empty string scores 80 minus the
    attribute's normalized length on every considered attribute, so the
    matcher returns no match only when every considered attribute normalizes
    to more than 30 characters. -/
theorem C9_empty_norm_target (target : String) (vs : List Visual)
    (ht : target ≠ "") (hn : norm target = "")
    (hlong : ∀ v ∈ vs, ∀ a ∈ consideredAttrs v, 30 < (norm a).data.length) :
    smart_match_chart target vs = none := by
  have hmax : maxScore target vs < 50 := by
    unfold maxScore
    apply foldl_max_lt
    · norm_num
    · intro x hx
      obtain ⟨q, hq, he⟩ := List.mem_map.mp hx
      obtain ⟨v, hv, a, ha, heq⟩ := allPairs_elim _ vs q hq
      have hlen := hlong v hv a ha
      have hcn : (norm a).data ≠ [] := by
        intro he2
        rw [he2] at hlen
        simp at hlen
      have hsc : q.2 = 80 - ((norm a).data.length : Int) := by
        rw [heq]
        show scoreAttr (norm target).data (norm a).data = _
        rw [show (norm target).data = [] from by rw [hn]]
        exact scoreAttr_nil_left _ hcn
      rw [← he, hsc]
      have h30 : (30 : Int) < (norm a).data.length := by exact_mod_cast hlen
      linarith
  rw [smart_match_eq target vs ht, if_neg (not_le.mpr hmax)]

/-- Witness for C9: an all-punctuation target against one candidate whose
    title normalizes to 32 characters yields no match. -/
theorem C9_empty_norm_target_witness :
    smart_match_chart "!!!" [⟨"a123456789b123456789c123456789xy", ""⟩] = none :=
  C9_empty_norm_target "!!!" [⟨"a123456789b123456789c123456789xy", ""⟩]
    (by decide) (by decide) (by decide)

/-- C10 counterexample: a classifier response with the key "foo" (outside the
    seven RoleKinds) and a valid field value survives `_merge_signals`, so
    the merged assignment's key set is not closed over the seven roles. -/
theorem C10_counterexample :
    ("foo", "Txn_Date") ∈
      mergeSignals [("Txn_Date", "SalesTable")] [] [] [("foo", "Txn_Date")] ∧
    "foo" ∉ requiredRoles := by
  decide

/-- C10 amended: the schema and naming-pattern signal maps only ever carry
    the seven roles, and merging adds no keys beyond its three sources, so
    whenever the classifier map's keys are among the seven roles (in
    particular when it is empty), every key of the merged assignment and of
    the completed assignment after fallback is one of the seven roles. -/
theorem C10_role_keys_closed (fields : Fields) (schema : Schema) (g : SigMap)
    (hG : ∀ p ∈ g, p.1 ∈ requiredRoles) :
    (∀ p ∈ mergeSignals fields (analyzeSchemaSignals schema fields)
        (analyzeCardinality fields) g, p.1 ∈ requiredRoles) ∧
    (∀ p ∈ applyFallback fields
        (mergeSignals fields (analyzeSchemaSignals schema fields)
          (analyzeCardinality fields) g), p.1 ∈ requiredRoles) := by
  have hm : ∀ p ∈ mergeSignals fields (analyzeSchemaSignals schema fields)
      (analyzeCardinality fields) g, p.1 ∈ requiredRoles :=
    keys_mergeSignals fields _ _ g requiredRoles
      (keys_analyzeSchemaSignals schema fields) (keys_analyzeCardinality fields) hG
  exact ⟨hm, keys_applyFallback fields _ requiredRoles (fun r hr => hr) hm⟩

/-- Witness for C10 with a one-field set and a classifier map on role date. -/
theorem C10_role_keys_closed_witness :
    (∀ p ∈ mergeSignals [("Txn_Date", "SalesTable")]
        (analyzeSchemaSignals [] [("Txn_Date", "SalesTable")])
        (analyzeCardinality [("Txn_Date", "SalesTable")])
        [("date", "Txn_Date")], p.1 ∈ requiredRoles) ∧
    (∀ p ∈ applyFallback [("Txn_Date", "SalesTable")]
        (mergeSignals [("Txn_Date", "SalesTable")]
          (analyzeSchemaSignals [] [("Txn_Date", "SalesTable")])
          (analyzeCardinality [("Txn_Date", "SalesTable")])
          [("date", "Txn_Date")]), p.1 ∈ requiredRoles) :=
  C10_role_keys_closed [("Txn_Date", "SalesTable")] [] [("date", "Txn_Date")]
    (by decide)

end PBI
